import Mathlib

/-!
Verification of the `mst-parser` template parser (`src/parser.rs`, `src/ast.rs`,
`src/error.rs`).

The Rust parser scans a UTF-8 string as a stream of (byte-offset, character)
pairs (`str::char_indices`).  We model the input as a `List Char`; byte offsets
are recovered by summing `Char.utf8Size`, exactly as `char_indices` does.
Literal text nodes are built by byte-slicing the original input between two
offsets; `byteSlice` models that slicing for offsets that lie on character
boundaries (the only offsets the parser ever uses).

`parse_recursive` in the Rust source is a while-loop inside a recursive
function.  We embed it as one recursive Lean function whose loop state
(`nodes`, `current_text_start`) is threaded through accumulator arguments, and
whose recursion is driven by a fuel parameter so that the definition is
structural and computable.  `parse_inner` supplies fuel `stream.length + 1`,
which is proved sufficient below (`parse_recursive_fuel_sufficient`), so the
out-of-fuel branch of `parse_inner` is unreachable.
-/

namespace Mst

/-- The opening brace character of a tag delimiter. -/
def lbr : Char := '\x7b'

/-- The closing brace character of a tag delimiter. -/
def rbr : Char := '\x7d'

/-- Total UTF-8 byte length of a list of characters (models `str::len`). -/
def utf8Len : List Char → Nat
  | [] => 0
  | c :: cs => c.utf8Size + utf8Len cs

/-- Pair every character with its byte offset, starting at `pos`
(models `str::char_indices`). -/
def charIdx : Nat → List Char → List (Nat × Char)
  | _, [] => []
  | pos, c :: cs => (pos, c) :: charIdx (pos + c.utf8Size) cs

/-- The characters of `input` whose byte offsets lie in `[start, stop)`
(models the byte slice `&input[start..stop]` at character boundaries). -/
def byteSlice (input : List Char) (start stop : Nat) : List Char :=
  ((charIdx 0 input).filter (fun p => decide (start ≤ p.1 ∧ p.1 < stop))).map Prod.snd

/-- AST node (models `ast.rs::Node`): literal text, or a variable tag holding
the recursively parsed parts between its delimiters. -/
inductive Node where
  | Text (content : List Char)
  | Variable (parts : List Node)

/-- Resource limits (models `ast.rs::Limits`). -/
structure Limits where
  max_depth : Nat
  max_nodes : Nat

/-- Models `Limits::default()`: max_depth 5, max_nodes 50. -/
def Limits.default : Limits := { max_depth := 5, max_nodes := 50 }

/-- Parse errors (models `error.rs::Error`); every variant carries the byte
offset at which the problem was detected. -/
inductive Error where
  | DepthExceeded (limit : Nat) (offset : Nat)
  | NodeLimitExceeded (limit : Nat) (offset : Nat)
  | UnclosedVariable (offset : Nat)
  | EmptyVariable (offset : Nat)
  | UnbalancedTag (offset : Nat)
deriving DecidableEq

/-- Mutable parser state (models `parser.rs::ParserState`). -/
structure ParserState where
  node_count : Nat
  depth : Nat
  max_nodes : Nat
  max_depth : Nat

/-- Models `ParserState::new`. -/
def ParserState.new (limits : Limits) : ParserState :=
  { node_count := 0, depth := 0,
    max_nodes := limits.max_nodes, max_depth := limits.max_depth }

/-- Models `ParserState::inc_node`. -/
def ParserState.inc_node (st : ParserState) (offset : Nat) :
    Except Error ParserState :=
  if st.node_count ≥ st.max_nodes then
    .error (Error.NodeLimitExceeded st.max_nodes offset)
  else
    .ok { st with node_count := st.node_count + 1 }

/-- Models `ParserState::enter_depth`. -/
def ParserState.enter_depth (st : ParserState) (offset : Nat) :
    Except Error ParserState :=
  if st.depth ≥ st.max_depth then
    .error (Error.DepthExceeded st.max_depth offset)
  else
    .ok { st with depth := st.depth + 1 }

/-- Models `ParserState::exit_depth`: `checked_sub(1)` underflows exactly when the
depth is zero. -/
def ParserState.exit_depth (st : ParserState) (offset : Nat) :
    Except Error ParserState :=
  if st.depth = 0 then
    .error (Error.UnbalancedTag offset)
  else
    .ok { st with depth := st.depth - 1 }

/-- One-character lookahead on the stream (models `Peekable::peek`, keeping
only the character, which is all the parser's peeks inspect). -/
def peekChar : List (Nat × Char) → Option Char
  | [] => none
  | (_, c) :: _ => some c

/-- The result of one `parse_recursive` call: the nodes collected, the
unconsumed remainder of the stream, and the updated state. -/
structure PRes where
  nodes : List Node
  rest : List (Nat × Char)
  st : ParserState

/-- The text-flush block that `parse_recursive` performs before a tag open,
before a tag close, and at end of input: if a text span is pending and
non-empty, count it against the node limit and append a `Text` node holding
the byte slice `[start, idx)` of the original input. -/
def flushText (input : List Char) (st : ParserState) (nodes : List Node)
    (current_text_start : Option Nat) (idx : Nat) :
    Except Error (List Node × ParserState) :=
  match current_text_start with
  | none => .ok (nodes, st)
  | some start =>
    if start < idx then
      match st.inc_node start with
      | .error e => .error e
      | .ok st1 => .ok (nodes ++ [Node.Text (byteSlice input start idx)], st1)
    else
      .ok (nodes, st)

/-- Fuel-indexed embedding of `parser.rs::parse_recursive`.  The while-loop's
mutable locals become the accumulators `nodes` (nodes collected so far at this
level) and `current_text_start` (start offset of the pending text span);
`var_open_offset` is `some idx` when parsing the interior of a tag opened at
byte offset `idx`.  `none` is returned only on fuel exhaustion, which cannot
happen for the fuel supplied by `parse_inner`
(theorem `parse_recursive_fuel_sufficient`). -/
def parse_recursive : Nat → List Char → List (Nat × Char) → ParserState →
    Option Nat → List Node → Option Nat → Option (Except Error PRes)
  | 0, _, _, _, _, _, _ => none
  | fuel + 1, input, stream, st, var_open_offset, nodes, current_text_start =>
    match stream with
    | [] =>
      match var_open_offset with
      | some open_offset => some (.error (Error.UnclosedVariable open_offset))
      | none =>
        match flushText input st nodes current_text_start (utf8Len input) with
        | .error e => some (.error e)
        | .ok (nodes1, st1) => some (.ok ⟨nodes1, [], st1⟩)
    | (idx, ch) :: rest =>
      if ch == lbr && peekChar rest == some lbr then
        match flushText input st nodes current_text_start idx with
        | .error e => some (.error e)
        | .ok (nodes1, st1) =>
          match st1.inc_node idx with
          | .error e => some (.error e)
          | .ok st2 =>
            match st2.enter_depth idx with
            | .error e => some (.error e)
            | .ok st3 =>
              match parse_recursive fuel input rest.tail st3 (some idx) [] none with
              | none => none
              | some (.error e) => some (.error e)
              | some (.ok r) =>
                match r.st.exit_depth idx with
                | .error e => some (.error e)
                | .ok st5 =>
                  parse_recursive fuel input r.rest st5 var_open_offset
                    (nodes1 ++ [Node.Variable r.nodes]) none
      else
        match var_open_offset with
        | some open_offset =>
          if ch == rbr && peekChar rest == some rbr then
            match flushText input st nodes current_text_start idx with
            | .error e => some (.error e)
            | .ok (nodes1, st1) =>
              if nodes1.isEmpty then
                some (.error (Error.EmptyVariable open_offset))
              else
                some (.ok ⟨nodes1, rest.tail, st1⟩)
          else
            parse_recursive fuel input rest st var_open_offset nodes
              (match current_text_start with
               | none => some idx
               | some s => some s)
        | none =>
          parse_recursive fuel input rest st var_open_offset nodes
            (match current_text_start with
             | none => some idx
             | some s => some s)

/-- Embedding of `parser.rs::parse_inner`.  The fuel `stream.length + 1` is
sufficient (`parse_recursive_fuel_sufficient`), so the final branch is
unreachable. -/
def parse_inner (input : List Char) (limits : Limits) :
    Except Error (List Node) :=
  match parse_recursive ((charIdx 0 input).length + 1) input (charIdx 0 input)
      (ParserState.new limits) none [] none with
  | some (.ok r) => .ok r.nodes
  | some (.error e) => .error e
  | none => .error (Error.UnbalancedTag 0)

/-- A configured parser (models `parser.rs::Parser`). -/
structure Parser where
  limits : Limits

/-- Models `Parser::default()` (the derived `Default` uses `Limits::default()`). -/
def Parser.default : Parser := { limits := Limits.default }

/-- Models `Parser::parse`. -/
def Parser.parse (p : Parser) (input : List Char) : Except Error (List Node) :=
  parse_inner input p.limits

/-- The convenience function `parser.rs::parse`: parse with default limits. -/
def parse (input : List Char) : Except Error (List Node) :=
  Parser.default.parse input

/-! ### Derived measures on the AST

These definitions are used only to state the specification's invariants; the
parser itself never calls them. -/

/-- Concatenation, in document order, of the literal contents of `Text` nodes
and the bracketed reconstruction of `Variable` nodes (each `Variable` rendered
as an opening delimiter, the reconstruction of its parts, and a closing
delimiter). -/
def reconstructList : List Node → List Char
  | [] => []
  | Node.Text s :: ns => s ++ reconstructList ns
  | Node.Variable ps :: ns =>
    lbr :: lbr :: (reconstructList ps ++ rbr :: rbr :: reconstructList ns)

/-- Total number of `Text` and `Variable` nodes, nested nodes included. -/
def countList : List Node → Nat
  | [] => 0
  | Node.Text _ :: ns => 1 + countList ns
  | Node.Variable ps :: ns => 1 + countList ps + countList ns

/-- Maximum nesting depth of `Variable` nodes: a `Text` node has depth 0 and
a `Variable` node has depth one more than the maximum depth of its parts. -/
def depthList : List Node → Nat
  | [] => 0
  | Node.Text _ :: ns => depthList ns
  | Node.Variable ps :: ns => max (1 + depthList ps) (depthList ns)

/-- Returns `true` iff every `Variable` node occurring anywhere in the list (top level
or nested) has a non-empty parts sequence. -/
def varsNonempty : List Node → Bool
  | [] => true
  | Node.Text _ :: ns => varsNonempty ns
  | Node.Variable ps :: ns => !ps.isEmpty && varsNonempty ps && varsNonempty ns

/-- Returns `true` iff the character list contains two adjacent opening braces, i.e.
the tag-open sequence. -/
def hasOpenPair : List Char → Bool
  | c1 :: c2 :: cs => (c1 == lbr && c2 == lbr) || hasOpenPair (c2 :: cs)
  | _ => false

/-- Returns `true` iff the parse result is the internal `UnbalancedTag` error. -/
def isUnbalancedResult : Except Error (List Node) → Bool
  | .error (Error.UnbalancedTag _) => true
  | _ => false

/-- Scenario input: a greeting, a simple variable tag, and a trailing mark. -/
def exHello : List Char :=
  ['H', 'e', 'l', 'l', 'o', ' ', '\x7b', '\x7b', 'n', 'a', 'm', 'e',
   '\x7d', '\x7d', '!']

/-- Scenario input: a tag opened at byte 6 and never closed. -/
def exUnclosed : List Char :=
  ['H', 'e', 'l', 'l', 'o', ' ', '\x7b', '\x7b', 'n', 'a', 'm', 'e']

/-- Scenario input: a tag with nothing between its delimiters. -/
def exEmptyTag : List Char :=
  ['\x7b', '\x7b', '\x7d', '\x7d']

/-- Scenario input: a lone closing delimiter in top-level text. -/
def exLone : List Char :=
  ['h', 'e', 'l', 'l', 'o', '\x7d', '\x7d', 'w', 'o', 'r', 'l', 'd']

/-- Scenario input: a tag nested inside another tag, the inner one opening
at byte 3. -/
def exDepth : List Char :=
  ['\x7b', '\x7b', 'a', '\x7b', '\x7b', 'b', '\x7d', '\x7d', '\x7d', '\x7d']

/-! ### Byte-offset infrastructure -/

theorem utf8Len_append (a b : List Char) :
    utf8Len (a ++ b) = utf8Len a + utf8Len b := by
  induction a with
  | nil => simp [utf8Len]
  | cons c cs ih => simp [utf8Len, ih]; omega

theorem utf8Len_eq_zero {l : List Char} (h : utf8Len l = 0) : l = [] := by
  cases l with
  | nil => rfl
  | cons c cs =>
    exfalso
    have hc := c.utf8Size_pos
    simp [utf8Len] at h
    omega

theorem charIdx_append (p : Nat) (a b : List Char) :
    charIdx p (a ++ b) = charIdx p a ++ charIdx (p + utf8Len a) b := by
  induction a generalizing p with
  | nil => simp [charIdx, utf8Len]
  | cons c cs ih =>
    simp [charIdx, utf8Len, ih, Nat.add_assoc]

theorem charIdx_map_snd (p : Nat) (l : List Char) :
    (charIdx p l).map Prod.snd = l := by
  induction l generalizing p with
  | nil => simp [charIdx]
  | cons c cs ih => simp [charIdx, ih]

theorem charIdx_length (p : Nat) (l : List Char) :
    (charIdx p l).length = l.length := by
  induction l generalizing p with
  | nil => simp [charIdx]
  | cons c cs ih => simp [charIdx, ih]

theorem charIdx_offset_bound {p : Nat} {l : List Char} :
    ∀ q ∈ charIdx p l, p ≤ q.1 ∧ q.1 < p + utf8Len l := by
  induction l generalizing p with
  | nil => simp [charIdx]
  | cons c cs ih =>
    intro q hq
    have hc := c.utf8Size_pos
    simp only [charIdx, List.mem_cons] at hq
    rcases hq with rfl | hq
    · simp [utf8Len]; omega
    · have h2 := ih q hq
      simp [utf8Len]
      omega

theorem byteSlice_eq_nil {input : List Char} {start stop : Nat}
    (h : stop ≤ start) : byteSlice input start stop = [] := by
  unfold byteSlice
  rw [List.filter_eq_nil_iff.mpr]
  · rfl
  · intro q _
    simp only [decide_eq_true_eq]
    omega

theorem byteSlice_spec {input pre mid suf : List Char}
    (h : input = pre ++ (mid ++ suf)) :
    byteSlice input (utf8Len pre) (utf8Len pre + utf8Len mid) = mid := by
  subst h
  unfold byteSlice
  rw [charIdx_append, charIdx_append, List.filter_append, List.filter_append]
  have h1 : (charIdx 0 pre).filter
      (fun p => decide (utf8Len pre ≤ p.1 ∧ p.1 < utf8Len pre + utf8Len mid)) = [] := by
    rw [List.filter_eq_nil_iff]
    intro q hq
    have := charIdx_offset_bound q hq
    simp only [decide_eq_true_eq]
    omega
  have h2 : (charIdx (0 + utf8Len pre) mid).filter
      (fun p => decide (utf8Len pre ≤ p.1 ∧ p.1 < utf8Len pre + utf8Len mid)) =
      charIdx (0 + utf8Len pre) mid := by
    rw [List.filter_eq_self]
    intro q hq
    have := charIdx_offset_bound q hq
    simp only [decide_eq_true_eq]
    omega
  have h3 : (charIdx (0 + utf8Len pre + utf8Len mid) suf).filter
      (fun p => decide (utf8Len pre ≤ p.1 ∧ p.1 < utf8Len pre + utf8Len mid)) = [] := by
    rw [List.filter_eq_nil_iff]
    intro q hq
    have := charIdx_offset_bound q hq
    simp only [decide_eq_true_eq]
    omega
  rw [h1, h2, h3]
  simp [charIdx_map_snd]

/-! ### Lemmas about the AST measures -/

theorem reconstructList_append (a b : List Node) :
    reconstructList (a ++ b) = reconstructList a ++ reconstructList b := by
  induction a with
  | nil => simp [reconstructList]
  | cons n ns ih =>
    cases n with
    | Text s => simp [reconstructList, ih]
    | Variable ps => simp [reconstructList, ih]

theorem countList_append (a b : List Node) :
    countList (a ++ b) = countList a + countList b := by
  induction a with
  | nil => simp [countList]
  | cons n ns ih =>
    cases n with
    | Text s => simp [countList, ih]; omega
    | Variable ps => simp [countList, ih]; omega

theorem depthList_append (a b : List Node) :
    depthList (a ++ b) = max (depthList a) (depthList b) := by
  induction a with
  | nil => simp [depthList]
  | cons n ns ih =>
    cases n with
    | Text s => simp [depthList, ih]
    | Variable ps => simp [depthList, ih]; omega

theorem varsNonempty_append (a b : List Node) :
    varsNonempty (a ++ b) = (varsNonempty a && varsNonempty b) := by
  induction a with
  | nil => simp [varsNonempty]
  | cons n ns ih =>
    cases n with
    | Text s => simp [varsNonempty, ih]
    | Variable ps =>
      simp [varsNonempty, ih, Bool.and_assoc]

/-! ### Lemmas about the state operations -/

theorem inc_node_ok {st st1 : ParserState} {off : Nat}
    (h : st.inc_node off = .ok st1) :
    st.node_count < st.max_nodes ∧
    st1 = { st with node_count := st.node_count + 1 } := by
  unfold ParserState.inc_node at h
  split at h
  · cases h
  · rename_i hcond
    injection h with h
    exact ⟨by omega, h.symm⟩

theorem inc_node_error {st : ParserState} {off : Nat} {e : Error}
    (h : st.inc_node off = .error e) :
    e = Error.NodeLimitExceeded st.max_nodes off := by
  unfold ParserState.inc_node at h
  split at h
  · injection h with h
    exact h.symm
  · cases h

theorem enter_depth_ok {st st1 : ParserState} {off : Nat}
    (h : st.enter_depth off = .ok st1) :
    st.depth < st.max_depth ∧
    st1 = { st with depth := st.depth + 1 } := by
  unfold ParserState.enter_depth at h
  split at h
  · cases h
  · rename_i hcond
    injection h with h
    exact ⟨by omega, h.symm⟩

theorem enter_depth_error {st : ParserState} {off : Nat} {e : Error}
    (h : st.enter_depth off = .error e) :
    e = Error.DepthExceeded st.max_depth off := by
  unfold ParserState.enter_depth at h
  split at h
  · injection h with h
    exact h.symm
  · cases h

theorem exit_depth_ok {st st1 : ParserState} {off : Nat}
    (h : st.exit_depth off = .ok st1) :
    0 < st.depth ∧ st1 = { st with depth := st.depth - 1 } := by
  unfold ParserState.exit_depth at h
  split at h
  · cases h
  · rename_i hcond
    injection h with h
    exact ⟨by omega, h.symm⟩

theorem exit_depth_of_pos {st : ParserState} {off : Nat} (h : 0 < st.depth) :
    st.exit_depth off = .ok { st with depth := st.depth - 1 } := by
  unfold ParserState.exit_depth
  rw [if_neg (by omega)]

theorem flushText_cases {input : List Char} {st : ParserState}
    {nodes : List Node} {cts : Option Nat} {idx : Nat}
    {nodes1 : List Node} {st1 : ParserState}
    (h : flushText input st nodes cts idx = .ok (nodes1, st1)) :
    (nodes1 = nodes ∧ st1 = st ∧
      (cts = none ∨ ∃ start, cts = some start ∧ ¬ start < idx)) ∨
    (∃ start, cts = some start ∧ start < idx ∧
      nodes1 = nodes ++ [Node.Text (byteSlice input start idx)] ∧
      st.node_count < st.max_nodes ∧
      st1 = { st with node_count := st.node_count + 1 }) := by
  unfold flushText at h
  match cts with
  | none =>
    injection h with h
    exact Or.inl ⟨congrArg Prod.fst h.symm, congrArg Prod.snd h.symm, Or.inl rfl⟩
  | some start =>
    simp only at h
    split at h
    · rename_i hlt
      split at h
      · cases h
      · rename_i st2 hinc
        obtain ⟨hcnt, hst2⟩ := inc_node_ok hinc
        injection h with h
        refine Or.inr ⟨start, rfl, hlt, congrArg Prod.fst h.symm, hcnt, ?_⟩
        rw [← hst2]
        exact congrArg Prod.snd h.symm
    · rename_i hnlt
      injection h with h
      exact Or.inl ⟨congrArg Prod.fst h.symm, congrArg Prod.snd h.symm,
        Or.inr ⟨start, rfl, hnlt⟩⟩

theorem flushText_props {input : List Char} {st : ParserState}
    {nodes : List Node} {cts : Option Nat} {idx : Nat}
    {nodes1 : List Node} {st1 : ParserState}
    (h : flushText input st nodes cts idx = .ok (nodes1, st1)) :
    st1.max_nodes = st.max_nodes ∧
    st1.max_depth = st.max_depth ∧
    st1.depth = st.depth ∧
    st1.node_count + countList nodes = st.node_count + countList nodes1 ∧
    (st1.node_count ≤ st.max_nodes ∨ st1.node_count = st.node_count) ∧
    (varsNonempty nodes = true → varsNonempty nodes1 = true) ∧
    depthList nodes1 = depthList nodes := by
  rcases flushText_cases h with ⟨h1, h2, _⟩ | ⟨start, hcts, hlt, h1, hcnt, h2⟩
  · subst h1; subst h2
    exact ⟨rfl, rfl, rfl, rfl, Or.inr rfl, fun hv => hv, rfl⟩
  · subst h1; subst h2
    refine ⟨rfl, rfl, rfl, ?_,
      Or.inl (show st.node_count + 1 ≤ st.max_nodes by omega), ?_, ?_⟩
    · simp [countList_append, countList]
      omega
    · intro hv
      simp [varsNonempty_append, varsNonempty, hv]
    · simp [depthList_append, depthList]

theorem exit_depth_error {st : ParserState} {off : Nat} {e : Error}
    (h : st.exit_depth off = .error e) :
    st.depth = 0 ∧ e = Error.UnbalancedTag off := by
  unfold ParserState.exit_depth at h
  split at h
  · rename_i h0
    injection h with h
    exact ⟨h0, h.symm⟩
  · cases h

/-- When a text span `[utf8Len pre0, utf8Len pre0 + utf8Len mid0)` is pending
(or no span is pending, in which case `mid0 = []`), flushing it appends
exactly the characters `mid0` to the reconstruction. -/
theorem flushText_reconstruct {input pre0 mid0 tail : List Char}
    {st st1 : ParserState} {nodes nodes1 : List Node} {cts : Option Nat}
    (hin : input = pre0 ++ (mid0 ++ tail))
    (hcs : (cts = none ∧ mid0 = []) ∨ cts = some (utf8Len pre0))
    (h : flushText input st nodes cts (utf8Len pre0 + utf8Len mid0) =
      .ok (nodes1, st1)) :
    reconstructList nodes1 = reconstructList nodes ++ mid0 := by
  rcases flushText_cases h with ⟨h1, _, hreason⟩ | ⟨start, hcts, hlt, h1, _, _⟩
  · subst h1
    rcases hcs with ⟨_, hm⟩ | hcts2
    · subst hm; simp
    · rcases hreason with hn | ⟨s2, hs2, hnlt⟩
      · rw [hcts2] at hn; cases hn
      · rw [hcts2] at hs2
        injection hs2 with hs2
        rw [← hs2] at hnlt
        have hm0 : utf8Len mid0 = 0 := by omega
        rw [utf8Len_eq_zero hm0]
        simp
  · rcases hcs with ⟨hnone, _⟩ | hcts2
    · rw [hnone] at hcts; cases hcts
    · rw [hcts2] at hcts
      injection hcts with hcts
      subst hcts
      subst h1
      rw [byteSlice_spec hin]
      simp [reconstructList_append, reconstructList]

theorem flushText_error {input : List Char} {st : ParserState}
    {nodes : List Node} {cts : Option Nat} {idx : Nat} {e : Error}
    (h : flushText input st nodes cts idx = .error e) :
    ∃ start, e = Error.NodeLimitExceeded st.max_nodes start := by
  unfold flushText at h
  match cts with
  | none => cases h
  | some start =>
    simp only at h
    split at h
    · split at h
      · rename_i e2 hinc
        injection h with h
        exact ⟨start, h ▸ inc_node_error hinc⟩
      · cases h
    · cases h

/-! ### Combined invariants of `parse_recursive` on success

One induction on fuel establishes: the returned remainder is no longer than
the stream; the limits and the depth counter are restored on return; node
accounting matches the number of nodes produced; the node counter stays within
the limit whenever an increment happened; a call parsing a tag interior
returns a non-empty node list; every `Variable` produced is non-empty; and the
nesting depth of the produced nodes is bounded by the depth budget. -/

theorem parse_recursive_ok_props :
    ∀ (fuel : Nat) (input : List Char) (stream : List (Nat × Char))
      (st : ParserState) (vo : Option Nat) (nodes : List Node)
      (cts : Option Nat) (r : PRes),
      parse_recursive fuel input stream st vo nodes cts = some (.ok r) →
      r.rest.length ≤ stream.length ∧
      r.st.max_nodes = st.max_nodes ∧
      r.st.max_depth = st.max_depth ∧
      r.st.depth = st.depth ∧
      r.st.node_count + countList nodes = st.node_count + countList r.nodes ∧
      (r.st.node_count ≤ st.max_nodes ∨ r.st.node_count = st.node_count) ∧
      (vo ≠ none → r.nodes ≠ []) ∧
      (varsNonempty nodes = true → varsNonempty r.nodes = true) ∧
      (depthList nodes ≤ st.max_depth - st.depth →
        depthList r.nodes ≤ st.max_depth - st.depth) := by
  intro fuel
  induction fuel with
  | zero =>
    intro input stream st vo nodes cts r h
    simp [parse_recursive] at h
  | succ fuel ih =>
    intro input stream st vo nodes cts r h
    cases stream with
    | nil =>
      cases vo with
      | some o => simp [parse_recursive] at h
      | none =>
        simp only [parse_recursive] at h
        split at h
        · simp at h
        · rename_i nodes1 st1 hflush
          injection h with h
          injection h with h
          subst h
          obtain ⟨f1, f2, f3, f4, f5, f6, f7⟩ := flushText_props hflush
          refine ⟨by simp, f1, f2, f3, f4, ?_, by simp, f6, by rw [f7]; exact id⟩
          rcases f5 with f5 | f5
          · exact Or.inl f5
          · exact Or.inr f5
    | cons hd rest =>
      obtain ⟨idx, ch⟩ := hd
      simp only [parse_recursive] at h
      split at h
      · -- tag-open branch
        rename_i hcond
        split at h
        · simp at h
        · rename_i nodes1 st1 hflush
          split at h
          · simp at h
          · rename_i st2 hinc
            split at h
            · simp at h
            · rename_i st3 hent
              split at h
              · simp at h
              · simp at h
              · rename_i r1 hnest
                split at h
                · simp at h
                · rename_i st5 hexit
                  -- h : continue call = some (.ok r)
                  obtain ⟨f1, f2, f3, f4, f5, f6, f7⟩ := flushText_props hflush
                  obtain ⟨hinc1, hinc2⟩ := inc_node_ok hinc
                  obtain ⟨hent1, hent2⟩ := enter_depth_ok hent
                  obtain ⟨n1, n2, n3, n4, n5, n6, n7, n8, n9⟩ :=
                    ih input rest.tail st3 (some idx) [] none r1 hnest
                  obtain ⟨hex1, hex2⟩ := exit_depth_ok hexit
                  obtain ⟨c1, c2, c3, c4, c5, c6, c7, c8, c9⟩ :=
                    ih input r1.rest st5 vo (nodes1 ++ [Node.Variable r1.nodes]) none r h
                  have g1 : st2.node_count = st1.node_count + 1 := by rw [hinc2]
                  have g2 : st2.depth = st1.depth := by rw [hinc2]
                  have g3 : st2.max_nodes = st1.max_nodes := by rw [hinc2]
                  have g4 : st2.max_depth = st1.max_depth := by rw [hinc2]
                  have k1 : st3.node_count = st2.node_count := by rw [hent2]
                  have k2 : st3.depth = st2.depth + 1 := by rw [hent2]
                  have k3 : st3.max_nodes = st2.max_nodes := by rw [hent2]
                  have k4 : st3.max_depth = st2.max_depth := by rw [hent2]
                  have x1 : st5.node_count = r1.st.node_count := by rw [hex2]
                  have x2 : st5.depth = r1.st.depth - 1 := by rw [hex2]
                  have x3 : st5.max_nodes = r1.st.max_nodes := by rw [hex2]
                  have x4 : st5.max_depth = r1.st.max_depth := by rw [hex2]
                  have hr1ne : r1.nodes ≠ [] := n7 (by simp)
                  have hvars1 : varsNonempty r1.nodes = true :=
                    n8 (by simp [varsNonempty])
                  have n5a : r1.st.node_count = st3.node_count + countList r1.nodes := by
                    simpa [countList] using n5
                  have hcountV :
                      countList (nodes1 ++ [Node.Variable r1.nodes]) =
                      countList nodes1 + (1 + countList r1.nodes) := by
                    simp [countList_append, countList]
                  have hdepthV :
                      depthList (nodes1 ++ [Node.Variable r1.nodes]) =
                      max (depthList nodes1) (1 + depthList r1.nodes) := by
                    simp [depthList_append, depthList]
                  have htl : rest.tail.length ≤ rest.length := by
                    cases rest <;> simp
                  refine ⟨by simp only [List.length_cons]; omega,
                    by omega, by omega, by omega, ?_, ?_, c7, ?_, ?_⟩
                  · rw [hcountV] at c5
                    omega
                  · rcases c6 with c6 | c6
                    · exact Or.inl (by omega)
                    · rcases n6 with n6 | n6
                      · exact Or.inl (by omega)
                      · exact Or.inl (by omega)
                  · intro hv
                    refine c8 ?_
                    rw [varsNonempty_append, f6 hv]
                    have hie : r1.nodes.isEmpty = false := by
                      cases hrn : r1.nodes with
                      | nil => exact absurd hrn hr1ne
                      | cons a as => rfl
                    simp [varsNonempty, hvars1, hie]
                  · intro hd2
                    have hdep1 : depthList r1.nodes ≤ st3.max_depth - st3.depth :=
                      n9 (by simp [depthList])
                    have hfin := c9 (by rw [hdepthV]; omega)
                    omega
      · -- not a tag open
        rename_i hcond
        split at h
        · -- inside a tag
          rename_i o
          split at h
          · -- tag-close branch
            rename_i hcond2
            split at h
            · simp at h
            · rename_i nodes1 st1 hflush
              split at h
              · simp at h
              · rename_i hne
                injection h with h
                injection h with h
                subst h
                obtain ⟨f1, f2, f3, f4, f5, f6, f7⟩ := flushText_props hflush
                have hn1 : nodes1 ≠ [] := by
                  intro h0
                  subst h0
                  exact hne rfl
                have htl : rest.tail.length ≤ rest.length := by
                  cases rest <;> simp
                refine ⟨by simp only [List.length_cons]; omega,
                  f1, f2, f3, f4, ?_, fun _ => hn1, f6, by rw [f7]; exact id⟩
                rcases f5 with f5 | f5
                · exact Or.inl f5
                · exact Or.inr f5
          · -- ordinary character inside a tag
            obtain ⟨p1, p2, p3, p4, p5, p6, p7, p8, p9⟩ :=
              ih input rest st (some o) nodes _ r h
            exact ⟨by simp only [List.length_cons]; omega,
              p2, p3, p4, p5, p6, p7, p8, p9⟩
        · -- ordinary character at top level
          obtain ⟨p1, p2, p3, p4, p5, p6, p7, p8, p9⟩ :=
            ih input rest st none nodes _ r h
          exact ⟨by simp only [List.length_cons]; omega,
            p2, p3, p4, p5, p6, p7, p8, p9⟩

theorem parse_recursive_rest_length {fuel : Nat} {input : List Char}
    {stream : List (Nat × Char)} {st : ParserState} {vo : Option Nat}
    {nodes : List Node} {cts : Option Nat} {r : PRes}
    (h : parse_recursive fuel input stream st vo nodes cts = some (.ok r)) :
    r.rest.length ≤ stream.length :=
  (parse_recursive_ok_props fuel input stream st vo nodes cts r h).1

/-- Fuel `stream.length + 1` never runs out: every loop step consumes at
least one stream element, and a nested call operates on a strictly shorter
stream. -/
theorem parse_recursive_fuel_sufficient :
    ∀ (fuel : Nat) (input : List Char) (stream : List (Nat × Char))
      (st : ParserState) (vo : Option Nat) (nodes : List Node) (cts : Option Nat),
      stream.length < fuel →
      parse_recursive fuel input stream st vo nodes cts ≠ none := by
  intro fuel
  induction fuel with
  | zero =>
    intro input stream st vo nodes cts hlen
    omega
  | succ fuel ih =>
    intro input stream st vo nodes cts hlen h
    cases stream with
    | nil =>
      cases vo with
      | some o => simp [parse_recursive] at h
      | none =>
        simp only [parse_recursive] at h
        split at h <;> simp at h
    | cons hd rest =>
      obtain ⟨idx, ch⟩ := hd
      simp only [List.length_cons] at hlen
      simp only [parse_recursive] at h
      split at h
      · rename_i hcond
        split at h
        · simp at h
        · split at h
          · simp at h
          · split at h
            · simp at h
            · rename_i st3 hent
              split at h
              · rename_i hnest
                have hrt : rest.tail.length ≤ rest.length := by
                  cases rest <;> simp
                exact ih input rest.tail st3 (some idx) [] none
                  (by omega) hnest
              · simp at h
              · rename_i r1 hnest
                split at h
                · simp at h
                · rename_i st5 hexit
                  have hr1 := parse_recursive_rest_length hnest
                  have hrt : rest.tail.length ≤ rest.length := by
                    cases rest <;> simp
                  exact ih input r1.rest st5 vo _ none (by omega) h
      · split at h
        · rename_i o
          split at h
          · split at h
            · simp at h
            · split at h
              · simp at h
              · simp at h
          · exact ih input rest st (some o) nodes _ (by omega) h
        · exact ih input rest st none nodes _ (by omega) h

/-- The `UnbalancedTag` error is unreachable: the depth counter is positive
whenever `exit_depth` runs, because `enter_depth` incremented it and the
nested call preserves it. -/
theorem parse_recursive_no_unbalanced :
    ∀ (fuel : Nat) (input : List Char) (stream : List (Nat × Char))
      (st : ParserState) (vo : Option Nat) (nodes : List Node) (cts : Option Nat)
      (o : Nat),
      parse_recursive fuel input stream st vo nodes cts ≠
        some (.error (Error.UnbalancedTag o)) := by
  intro fuel
  induction fuel with
  | zero =>
    intro input stream st vo nodes cts o
    simp [parse_recursive]
  | succ fuel ih =>
    intro input stream st vo nodes cts o h
    cases stream with
    | nil =>
      cases vo with
      | some oo => simp [parse_recursive] at h
      | none =>
        simp only [parse_recursive] at h
        split at h
        · rename_i e hflush
          injection h with h
          injection h with h
          obtain ⟨start, he⟩ := flushText_error hflush
          rw [h] at he
          cases he
        · simp at h
    | cons hd rest =>
      obtain ⟨idx, ch⟩ := hd
      simp only [parse_recursive] at h
      split at h
      · rename_i hcond
        split at h
        · rename_i e hflush
          injection h with h
          injection h with h
          obtain ⟨start, he⟩ := flushText_error hflush
          rw [h] at he
          cases he
        · rename_i nodes1 st1 hflush
          split at h
          · rename_i e hinc
            injection h with h
            injection h with h
            have he := inc_node_error hinc
            rw [h] at he
            cases he
          · rename_i st2 hinc
            split at h
            · rename_i e hent
              injection h with h
              injection h with h
              have he := enter_depth_error hent
              rw [h] at he
              cases he
            · rename_i st3 hent
              split at h
              · simp at h
              · rename_i e hnest
                injection h with h
                injection h with h
                rw [h] at hnest
                exact ih input rest.tail st3 (some idx) [] none o hnest
              · rename_i r1 hnest
                split at h
                · rename_i e hexit
                  obtain ⟨hz, _⟩ := exit_depth_error hexit
                  obtain ⟨_, _, _, n4, _⟩ :=
                    parse_recursive_ok_props fuel input rest.tail st3
                      (some idx) [] none r1 hnest
                  obtain ⟨_, hent2⟩ := enter_depth_ok hent
                  have : st3.depth = st2.depth + 1 := by rw [hent2]
                  omega
                · rename_i st5 hexit
                  exact ih input r1.rest st5 vo _ none o h
      · split at h
        · rename_i oo
          split at h
          · split at h
            · rename_i e hflush
              injection h with h
              injection h with h
              obtain ⟨start, he⟩ := flushText_error hflush
              rw [h] at he
              cases he
            · split at h
              · simp at h
              · simp at h
          · exact ih input rest st (some oo) nodes _ o h
        · exact ih input rest st none nodes _ o h

/-- Round-trip invariant of `parse_recursive`.  The call scans the stream of
`suf` positioned after `pre0 ++ mid0` in `input`, where `mid0` is the pending
text span (empty when no span is pending).  On success it consumed a prefix
`mid` of `suf`, and the reconstruction of the produced nodes extends the
reconstruction of the accumulated nodes by exactly the consumed characters —
with the closing delimiter appended when the call was parsing a tag
interior. -/
theorem parse_recursive_reconstruct :
    ∀ (fuel : Nat) (input : List Char) (pos : Nat) (pre0 mid0 suf : List Char)
      (st : ParserState) (vo : Option Nat) (nodes : List Node) (cts : Option Nat)
      (r : PRes),
      parse_recursive fuel input (charIdx pos suf) st vo nodes cts = some (.ok r) →
      input = pre0 ++ (mid0 ++ suf) →
      pos = utf8Len pre0 + utf8Len mid0 →
      ((cts = none ∧ mid0 = []) ∨ cts = some (utf8Len pre0)) →
      ∃ mid suf2, suf = mid ++ suf2 ∧
        r.rest = charIdx (pos + utf8Len mid) suf2 ∧
        (vo = none →
          reconstructList r.nodes = reconstructList nodes ++ mid0 ++ mid ∧
          suf2 = []) ∧
        (∀ o, vo = some o →
          reconstructList r.nodes ++ [rbr, rbr] =
            reconstructList nodes ++ mid0 ++ mid) := by
  intro fuel
  induction fuel with
  | zero =>
    intro input pos pre0 mid0 suf st vo nodes cts r h _ _ _
    simp [parse_recursive] at h
  | succ fuel ih =>
    intro input pos pre0 mid0 suf st vo nodes cts r h hin hpos hcs
    cases suf with
    | nil =>
      cases vo with
      | some o => simp [parse_recursive, charIdx] at h
      | none =>
        simp only [charIdx, parse_recursive] at h
        split at h
        · simp at h
        · rename_i nodes1 st1 hflush
          injection h with h
          injection h with h
          subst h
          have hlen : utf8Len input = utf8Len pre0 + utf8Len mid0 := by
            rw [hin, utf8Len_append, utf8Len_append]
            simp [utf8Len]
          rw [hlen] at hflush
          have hrec := flushText_reconstruct hin hcs hflush
          refine ⟨[], [], by simp, by simp [charIdx], ?_, ?_⟩
          · intro _
            exact ⟨by simp [hrec], rfl⟩
          · intro o ho
            cases ho
    | cons c cs =>
      simp only [charIdx, parse_recursive] at h
      split at h
      · -- tag-open branch
        rename_i hcond
        rw [Bool.and_eq_true] at hcond
        obtain ⟨hc, hpeek⟩ := hcond
        rw [beq_iff_eq] at hc
        subst hc
        cases cs with
        | nil => simp [charIdx, peekChar] at hpeek
        | cons c2 cs2 =>
          simp only [charIdx, peekChar, beq_iff_eq, Option.some.injEq] at hpeek
          subst hpeek
          simp only [charIdx, List.tail_cons] at h
          split at h
          · simp at h
          · rename_i nodes1 st1 hflush
            split at h
            · simp at h
            · rename_i st2 hinc
              split at h
              · simp at h
              · rename_i st3 hent
                split at h
                · simp at h
                · simp at h
                · rename_i r1 hnest
                  split at h
                  · simp at h
                  · rename_i st5 hexit
                    -- nested interior call
                    obtain ⟨mid2, suf3, hcs2eq, hr1rest, _, hsome2⟩ :=
                      ih input (pos + lbr.utf8Size + lbr.utf8Size)
                        (pre0 ++ (mid0 ++ [lbr, lbr])) [] cs2 st3 (some pos)
                        [] none r1 hnest
                        (by rw [hin]; simp)
                        (by rw [hpos, utf8Len_append, utf8Len_append]
                            simp [utf8Len]
                            omega)
                        (Or.inl ⟨rfl, rfl⟩)
                    have hmid2 : reconstructList r1.nodes ++ [rbr, rbr] = mid2 := by
                      have := hsome2 pos rfl
                      simpa [reconstructList] using this
                    -- continue call on the remainder
                    rw [hr1rest] at h
                    obtain ⟨mid3, suf4, hsuf3eq, hrrest, hnone3, hsome3⟩ :=
                      ih input (pos + lbr.utf8Size + lbr.utf8Size + utf8Len mid2)
                        (pre0 ++ (mid0 ++ (lbr :: lbr :: mid2))) [] suf3 st5 vo
                        (nodes1 ++ [Node.Variable r1.nodes]) none r h
                        (by rw [hin, hcs2eq]; simp)
                        (by rw [hpos, utf8Len_append, utf8Len_append]
                            simp [utf8Len]
                            omega)
                        (Or.inl ⟨rfl, rfl⟩)
                    rw [hpos] at hflush
                    have hfrec := flushText_reconstruct hin hcs hflush
                    have hrecV : reconstructList (nodes1 ++ [Node.Variable r1.nodes]) =
                        reconstructList nodes ++ mid0 ++ (lbr :: lbr :: mid2) := by
                      rw [reconstructList_append, hfrec]
                      simp [reconstructList, hmid2]
                    refine ⟨lbr :: lbr :: (mid2 ++ mid3), suf4, ?_, ?_, ?_, ?_⟩
                    · rw [hcs2eq, hsuf3eq]
                      simp
                    · rw [hrrest]
                      congr 1
                      simp [utf8Len, utf8Len_append]
                      omega
                    · intro hv
                      obtain ⟨he, hs4⟩ := hnone3 hv
                      refine ⟨?_, hs4⟩
                      rw [he, hrecV]
                      simp
                    · intro o ho
                      have he := hsome3 o ho
                      rw [he, hrecV]
                      simp
      · -- not a tag open
        rename_i hcond
        split at h
        · -- inside a tag
          rename_i open_offset
          split at h
          · -- tag-close branch
            rename_i hcond2
            rw [Bool.and_eq_true] at hcond2
            obtain ⟨hc, hpeek⟩ := hcond2
            rw [beq_iff_eq] at hc
            subst hc
            cases cs with
            | nil => simp [charIdx, peekChar] at hpeek
            | cons c2 cs2 =>
              simp only [charIdx, peekChar, beq_iff_eq, Option.some.injEq] at hpeek
              subst hpeek
              simp only [charIdx, List.tail_cons] at h
              split at h
              · simp at h
              · rename_i nodes1 st1 hflush
                split at h
                · simp at h
                · injection h with h
                  injection h with h
                  subst h
                  rw [hpos] at hflush
                  have hfrec := flushText_reconstruct hin hcs hflush
                  refine ⟨[rbr, rbr], cs2, by simp, ?_, ?_, ?_⟩
                  · simp only [utf8Len]
                    congr 1
                    try omega
                  · intro hv
                    cases hv
                  · intro o ho
                    rw [hfrec]
                    try simp
          · -- ordinary character inside a tag
            rcases hcs with ⟨hctsn, hmid0⟩ | hctss
            · subst hctsn
              subst hmid0
              obtain ⟨mid', suf2, hcseq, hrrest, hnone', hsome'⟩ :=
                ih input (pos + c.utf8Size) (pre0 ++ []) [c] cs st
                  (some open_offset) nodes _ r h
                  (by rw [hin]; simp)
                  (by rw [hpos, utf8Len_append]; simp [utf8Len]; try omega)
                  (Or.inr (show (some pos : Option Nat) =
                    some (utf8Len (pre0 ++ [])) by
                      rw [hpos]
                      simp [utf8Len_append, utf8Len]))
              refine ⟨c :: mid', suf2, by rw [hcseq]; simp, ?_, ?_, ?_⟩
              · rw [hrrest]
                congr 1
                simp [utf8Len]
                omega
              · intro hv
                cases hv
              · intro o ho
                have he := hsome' o ho
                rw [he]
                simp
            · subst hctss
              obtain ⟨mid', suf2, hcseq, hrrest, hnone', hsome'⟩ :=
                ih input (pos + c.utf8Size) pre0 (mid0 ++ [c]) cs st
                  (some open_offset) nodes _ r h
                  (by rw [hin]; simp)
                  (by rw [hpos, utf8Len_append]; simp [utf8Len]; try omega)
                  (Or.inr rfl)
              refine ⟨c :: mid', suf2, by rw [hcseq]; simp, ?_, ?_, ?_⟩
              · rw [hrrest]
                congr 1
                simp [utf8Len]
                omega
              · intro hv
                cases hv
              · intro o ho
                have he := hsome' o ho
                rw [he]
                simp
        · -- ordinary character at top level
          rcases hcs with ⟨hctsn, hmid0⟩ | hctss
          · subst hctsn
            subst hmid0
            obtain ⟨mid', suf2, hcseq, hrrest, hnone', hsome'⟩ :=
              ih input (pos + c.utf8Size) (pre0 ++ []) [c] cs st
                none nodes _ r h
                (by rw [hin]; simp)
                (by rw [hpos, utf8Len_append]; simp [utf8Len]; try omega)
                (Or.inr (show (some pos : Option Nat) =
                  some (utf8Len (pre0 ++ [])) by
                    rw [hpos]
                    simp [utf8Len_append, utf8Len]))
            refine ⟨c :: mid', suf2, by rw [hcseq]; simp, ?_, ?_, ?_⟩
            · rw [hrrest]
              congr 1
              simp [utf8Len]
              omega
            · intro hv
              obtain ⟨he, hs2⟩ := hnone' hv
              refine ⟨?_, hs2⟩
              rw [he]
              simp
            · intro o ho
              cases ho
          · subst hctss
            obtain ⟨mid', suf2, hcseq, hrrest, hnone', hsome'⟩ :=
              ih input (pos + c.utf8Size) pre0 (mid0 ++ [c]) cs st
                none nodes _ r h
                (by rw [hin]; simp)
                (by rw [hpos, utf8Len_append]; simp [utf8Len]; try omega)
                (Or.inr rfl)
            refine ⟨c :: mid', suf2, by rw [hcseq]; simp, ?_, ?_, ?_⟩
            · rw [hrrest]
              congr 1
              simp [utf8Len]
              omega
            · intro hv
              obtain ⟨he, hs2⟩ := hnone' hv
              refine ⟨?_, hs2⟩
              rw [he]
              simp
            · intro o ho
              cases ho

/-- With `max_nodes = 0` every node construction fails, so a top-level call
whose stream is non-empty (or which has a pending text span over a real
character) cannot succeed. -/
theorem parse_recursive_max_nodes_zero :
    ∀ (fuel : Nat) (input : List Char) (stream : List (Nat × Char))
      (st : ParserState) (nodes : List Node) (cts : Option Nat) (r : PRes),
      st.max_nodes = 0 →
      (∀ q ∈ stream, q.1 < utf8Len input) →
      (∀ s, cts = some s → s < utf8Len input) →
      (stream ≠ [] ∨ cts ≠ none) →
      parse_recursive fuel input stream st none nodes cts ≠ some (.ok r) := by
  intro fuel
  induction fuel with
  | zero =>
    intro input stream st nodes cts r _ _ _ _
    simp [parse_recursive]
  | succ fuel ih =>
    intro input stream st nodes cts r hmn hoff hcts hne h
    cases stream with
    | nil =>
      have hcts2 : cts ≠ none := by
        rcases hne with hne | hne
        · exact absurd rfl hne
        · exact hne
      obtain ⟨s, hs⟩ : ∃ s, cts = some s := by
        cases cts with
        | none => exact absurd rfl hcts2
        | some s => exact ⟨s, rfl⟩
      subst hs
      have hslt := hcts s rfl
      have hincerr : st.inc_node s =
          .error (Error.NodeLimitExceeded st.max_nodes s) := by
        unfold ParserState.inc_node
        rw [if_pos (by omega)]
      simp only [parse_recursive, flushText] at h
      rw [if_pos hslt, hincerr] at h
      simp at h
    | cons hd rest =>
      obtain ⟨idx, ch⟩ := hd
      have hidx : idx < utf8Len input := (hoff (idx, ch) (by simp))
      simp only [parse_recursive] at h
      split at h
      · -- tag-open branch: the node increment must fail
        split at h
        · simp at h
        · rename_i nodes1 st1 hflush
          rcases flushText_cases hflush with ⟨_, hst, _⟩ | ⟨_, _, _, _, hcnt, _⟩
          · subst hst
            split at h
            · simp at h
            · rename_i st2 hinc
              obtain ⟨hcnt2, _⟩ := inc_node_ok hinc
              omega
          · omega
      · -- ordinary character (the tag-close branch needs an open tag)
        refine ih input rest st nodes _ r hmn
          (fun q hq => hoff q (List.mem_cons_of_mem _ hq)) ?_ ?_ h
        · intro s hs
          cases cts with
          | none =>
            simp at hs
            omega
          | some s0 =>
            simp at hs
            subst hs
            exact hcts s0 rfl
        · right
          cases cts <;> simp

/-- With `max_depth = 0` every tag entry fails, so a successful top-level
parse implies the stream contained no adjacent pair of opening braces. -/
theorem parse_recursive_max_depth_zero :
    ∀ (fuel : Nat) (input : List Char) (stream : List (Nat × Char))
      (st : ParserState) (nodes : List Node) (cts : Option Nat) (r : PRes),
      st.max_depth = 0 →
      parse_recursive fuel input stream st none nodes cts = some (.ok r) →
      hasOpenPair (stream.map Prod.snd) = false := by
  intro fuel
  induction fuel with
  | zero =>
    intro input stream st nodes cts r _ h
    simp [parse_recursive] at h
  | succ fuel ih =>
    intro input stream st nodes cts r hmd h
    cases stream with
    | nil => simp [hasOpenPair]
    | cons hd rest =>
      obtain ⟨idx, ch⟩ := hd
      simp only [parse_recursive] at h
      split at h
      · -- tag-open branch: entering depth must fail
        rename_i hcond
        exfalso
        split at h
        · simp at h
        · rename_i nodes1 st1 hflush
          split at h
          · simp at h
          · rename_i st2 hinc
            split at h
            · simp at h
            · rename_i st3 hent
              obtain ⟨f1, f2, _⟩ := flushText_props hflush
              obtain ⟨_, hinc2⟩ := inc_node_ok hinc
              obtain ⟨hent1, _⟩ := enter_depth_ok hent
              have : st2.max_depth = st1.max_depth := by rw [hinc2]
              omega
      · -- ordinary character
        rename_i hcond
        have hrest := ih input rest st nodes _ r hmd h
        cases rest with
        | nil => simp [hasOpenPair]
        | cons hd2 rest2 =>
          obtain ⟨j, c2⟩ := hd2
          simp only [List.map_cons, hasOpenPair, Bool.or_eq_false_iff]
          constructor
          · simp only [peekChar] at hcond
            rw [Bool.and_eq_true] at hcond
            simp only [List.map_cons] at hrest
            by_cases h1 : ch = lbr
            · by_cases h2 : c2 = lbr
              · exact absurd ⟨by simp [h1], by simp [h2]⟩ hcond
              · simp [h2]
            · simp [h1]
          · simpa using hrest

/-! ### The claims -/

/-- C1: for every input string and every `Limits` value, if `parse_inner`
succeeds then concatenating, in document order, the contents of the `Text`
nodes and the bracketed reconstructions of the `Variable` nodes (each
`Variable` rendered as the opening delimiter pair, the recursive
reconstruction of its parts, and the closing delimiter pair) reproduces the
original input exactly. -/
theorem C1_round_trip (input : List Char) (limits : Limits) (ns : List Node)
    (h : parse_inner input limits = .ok ns) :
    reconstructList ns = input := by
  unfold parse_inner at h
  split at h
  · rename_i r heq
    injection h with h
    subst h
    obtain ⟨mid, suf2, hsplit, _, hnone, _⟩ :=
      parse_recursive_reconstruct _ input 0 [] [] input
        (ParserState.new limits) none [] none r heq (by simp)
        (by simp [utf8Len]) (Or.inl ⟨rfl, rfl⟩)
    obtain ⟨hrec, hs2⟩ := hnone rfl
    subst hs2
    have hm : reconstructList r.nodes = mid := by
      rw [hrec]
      simp [reconstructList]
    rw [hm, hsplit]
    simp
  · simp at h
  · simp at h

/-- Witness for C1 at the scenario input `exHello` under default limits. -/
theorem C1_round_trip_witness :
    reconstructList [Node.Text ['H', 'e', 'l', 'l', 'o', ' '],
      Node.Variable [Node.Text ['n', 'a', 'm', 'e']], Node.Text ['!']] =
      exHello :=
  C1_round_trip exHello Limits.default
    [Node.Text ['H', 'e', 'l', 'l', 'o', ' '],
      Node.Variable [Node.Text ['n', 'a', 'm', 'e']], Node.Text ['!']] rfl

/-- C2: for every input string and every `Limits` value, every `Variable`
node appearing anywhere in a successful parse result, top level or nested,
has a non-empty parts sequence. -/
theorem C2_variable_nonempty (input : List Char) (limits : Limits)
    (ns : List Node) (h : parse_inner input limits = .ok ns) :
    varsNonempty ns = true := by
  unfold parse_inner at h
  split at h
  · rename_i r heq
    injection h with h
    subst h
    obtain ⟨_, _, _, _, _, _, _, hv, _⟩ :=
      parse_recursive_ok_props _ _ _ _ _ _ _ _ heq
    exact hv (by simp [varsNonempty])
  · simp at h
  · simp at h

/-- Witness for C2 at the scenario input `exHello` under default limits. -/
theorem C2_variable_nonempty_witness :
    varsNonempty [Node.Text ['H', 'e', 'l', 'l', 'o', ' '],
      Node.Variable [Node.Text ['n', 'a', 'm', 'e']], Node.Text ['!']] =
      true :=
  C2_variable_nonempty exHello Limits.default _ rfl

/-- C3: for every input string and every `Limits` value, in a successful
parse the total number of `Text` plus `Variable` nodes in the result,
counting nested nodes, is at most `max_nodes`, and the maximum nesting depth
of `Variable` nodes in the result is at most `max_depth`. -/
theorem C3_limits_respected (input : List Char) (limits : Limits)
    (ns : List Node) (h : parse_inner input limits = .ok ns) :
    countList ns ≤ limits.max_nodes ∧ depthList ns ≤ limits.max_depth := by
  unfold parse_inner at h
  split at h
  · rename_i r heq
    injection h with h
    subst h
    obtain ⟨_, hmax, hmaxd, _, hcnt, hbnd, _, _, hdep⟩ :=
      parse_recursive_ok_props _ _ _ _ _ _ _ _ heq
    simp only [ParserState.new, countList] at hcnt hbnd
    constructor
    · rcases hbnd with hb | hb <;> omega
    · have hdep2 := hdep (by simp [depthList, ParserState.new])
      simp only [ParserState.new] at hdep2
      omega
  · simp at h
  · simp at h

/-- Witness for C3 at the scenario input `exHello` under default limits. -/
theorem C3_limits_respected_witness :
    countList [Node.Text ['H', 'e', 'l', 'l', 'o', ' '],
      Node.Variable [Node.Text ['n', 'a', 'm', 'e']], Node.Text ['!']] ≤
      Limits.default.max_nodes ∧
    depthList [Node.Text ['H', 'e', 'l', 'l', 'o', ' '],
      Node.Variable [Node.Text ['n', 'a', 'm', 'e']], Node.Text ['!']] ≤
      Limits.default.max_depth :=
  C3_limits_respected exHello Limits.default _ rfl

/-- C4: whenever a closing delimiter pair is reached while inside a tag and
the children sequence accumulated for that tag (after flushing any pending
text) is empty, the parse fails with `EmptyVariable` whose offset is the
enclosing tag's open offset; in particular the empty-tag scenario input
yields `EmptyVariable` at offset 0 under default limits. -/
theorem C4_empty_variable :
    (∀ (fuel : Nat) (input : List Char) (idx j : Nat)
       (rest2 : List (Nat × Char)) (st st1 : ParserState) (open_offset : Nat)
       (nodes : List Node) (cts : Option Nat),
       flushText input st nodes cts idx = .ok ([], st1) →
       parse_recursive (fuel + 1) input ((idx, rbr) :: (j, rbr) :: rest2) st
         (some open_offset) nodes cts =
         some (.error (Error.EmptyVariable open_offset))) ∧
    parse exEmptyTag = .error (Error.EmptyVariable 0) := by
  constructor
  · intro fuel input idx j rest2 st st1 open_offset nodes cts hflush
    simp [parse_recursive, peekChar, lbr, rbr, hflush]
  · rfl

/-- Witness for C4: a close pair reached inside a tag with no accumulated
children fails with `EmptyVariable` at the tag's open offset. -/
theorem C4_empty_variable_witness :
    parse_recursive 1 [rbr, rbr] [(0, rbr), (1, rbr)]
      (ParserState.new Limits.default) (some 0) [] none =
      some (.error (Error.EmptyVariable 0)) :=
  C4_empty_variable.1 0 [rbr, rbr] 0 1 [] (ParserState.new Limits.default)
    (ParserState.new Limits.default) 0 [] none rfl

/-- C5: if end of input is reached while inside a tag, the parse fails with
`UnclosedVariable` whose offset is that tag's open position; in particular
the unterminated-tag scenario input yields `UnclosedVariable` at offset 6
under default limits. -/
theorem C5_unclosed_variable :
    (∀ (fuel : Nat) (input : List Char) (st : ParserState) (open_offset : Nat)
       (nodes : List Node) (cts : Option Nat),
       parse_recursive (fuel + 1) input [] st (some open_offset) nodes cts =
         some (.error (Error.UnclosedVariable open_offset))) ∧
    parse exUnclosed = .error (Error.UnclosedVariable 6) :=
  ⟨fun _ _ _ _ _ _ => rfl, rfl⟩

/-- C6: when a tag-open delimiter pair is reached and the depth counter has
already reached `max_depth` (the preceding text flush and the variable's own
node count having succeeded), the parse fails with `DepthExceeded` carrying
the limit and the byte offset of that tag's opening brace; in particular the
nested scenario input under limits `max_depth = 1`, `max_nodes = 100` yields
`DepthExceeded` with limit 1 at offset 3. -/
theorem C6_depth_exceeded :
    (∀ (fuel : Nat) (input : List Char) (idx j : Nat)
       (rest2 : List (Nat × Char)) (st st1 st2 : ParserState)
       (vo : Option Nat) (nodes nodes1 : List Node) (cts : Option Nat),
       flushText input st nodes cts idx = .ok (nodes1, st1) →
       st1.inc_node idx = .ok st2 →
       st2.max_depth ≤ st2.depth →
       parse_recursive (fuel + 1) input ((idx, lbr) :: (j, lbr) :: rest2) st
         vo nodes cts =
         some (.error (Error.DepthExceeded st2.max_depth idx))) ∧
    parse_inner exDepth { max_depth := 1, max_nodes := 100 } =
      .error (Error.DepthExceeded 1 3) := by
  constructor
  · intro fuel input idx j rest2 st st1 st2 vo nodes nodes1 cts hflush hinc hdep
    have hent : st2.enter_depth idx =
        .error (Error.DepthExceeded st2.max_depth idx) := by
      unfold ParserState.enter_depth
      rw [if_pos (by omega)]
    simp [parse_recursive, peekChar, lbr, rbr, hflush, hinc, hent]
  · rfl

/-- Witness for C6: a tag open reached with the depth counter at the depth
limit fails with `DepthExceeded` at the opening brace's offset. -/
theorem C6_depth_exceeded_witness :
    parse_recursive 1 [] [(0, lbr), (1, lbr)]
      { node_count := 0, depth := 0, max_nodes := 50, max_depth := 0 }
      none [] none =
      some (.error (Error.DepthExceeded 0 0)) :=
  C6_depth_exceeded.1 0 [] 0 1 []
    { node_count := 0, depth := 0, max_nodes := 50, max_depth := 0 }
    { node_count := 0, depth := 0, max_nodes := 50, max_depth := 0 }
    { node_count := 1, depth := 0, max_nodes := 50, max_depth := 0 }
    none [] [] none rfl rfl (by decide)

/-- C7 counterexample: under `max_depth = 0` (with a positive node limit) the
non-empty single-character input parses successfully, refuting the claim that
`max_depth = 0` makes every non-empty input fail. -/
theorem C7_counterexample :
    (['a'] : List Char) ≠ [] ∧
    parse_inner ['a'] { max_depth := 0, max_nodes := 50 } =
      .ok [Node.Text ['a']] :=
  ⟨by simp, rfl⟩

/-- C7 amended: with `max_nodes = 0` every non-empty input fails on the first
node construction attempt; with `max_depth = 0` every input containing the
tag-open sequence fails on the first tag entry attempt, while an input
without a tag-open sequence is unaffected by `max_depth`. -/
theorem C7_zero_limits (input : List Char) (limits : Limits) :
    (limits.max_nodes = 0 → input ≠ [] →
      ∃ e, parse_inner input limits = .error e) ∧
    (limits.max_depth = 0 → hasOpenPair input = true →
      ∃ e, parse_inner input limits = .error e) := by
  constructor
  · intro hmn hne
    unfold parse_inner
    split
    · rename_i r heq
      exfalso
      refine parse_recursive_max_nodes_zero _ input (charIdx 0 input)
        (ParserState.new limits) [] none r hmn ?_ ?_ ?_ heq
      · intro q hq
        have := charIdx_offset_bound q hq
        omega
      · intro s hs
        cases hs
      · left
        intro h0
        apply hne
        have hl := charIdx_length 0 input
        rw [h0] at hl
        cases input with
        | nil => rfl
        | cons a as => simp at hl
    · rename_i e _
      exact ⟨e, rfl⟩
    · exact ⟨Error.UnbalancedTag 0, rfl⟩
  · intro hmd hop
    unfold parse_inner
    split
    · rename_i r heq
      exfalso
      have hfalse := parse_recursive_max_depth_zero _ input (charIdx 0 input)
        (ParserState.new limits) [] none r hmd heq
      rw [charIdx_map_snd, hop] at hfalse
      simp at hfalse
    · rename_i e _
      exact ⟨e, rfl⟩
    · exact ⟨Error.UnbalancedTag 0, rfl⟩

/-- Witness for C7 amended: a one-character input fails under a zero node
limit, and an input containing a tag fails under a zero depth limit. -/
theorem C7_zero_limits_witness :
    (∃ e, parse_inner ['a'] { max_depth := 5, max_nodes := 0 } = .error e) ∧
    (∃ e, parse_inner [lbr, lbr, 'a', rbr, rbr]
      { max_depth := 0, max_nodes := 50 } = .error e) :=
  ⟨(C7_zero_limits ['a'] { max_depth := 5, max_nodes := 0 }).1 rfl (by simp),
   (C7_zero_limits [lbr, lbr, 'a', rbr, rbr]
      { max_depth := 0, max_nodes := 50 }).2 rfl (by simp [hasOpenPair])⟩

/-- C8: a closing delimiter pair encountered while not inside any open tag is
treated as an ordinary literal character — the scan step is exactly the
ordinary-text step and raises no error; in particular the lone-closing-braces
scenario input parses to a single `Text` node under default limits. -/
theorem C8_top_level_close_is_text :
    (∀ (fuel : Nat) (input : List Char) (idx : Nat)
       (rest : List (Nat × Char)) (st : ParserState) (nodes : List Node)
       (cts : Option Nat),
       parse_recursive (fuel + 1) input ((idx, rbr) :: rest) st none nodes
         cts =
         parse_recursive fuel input rest st none nodes
           (match cts with | none => some idx | some s => some s)) ∧
    parse exLone = .ok [Node.Text exLone] := by
  constructor
  · intro fuel input idx rest st nodes cts
    have hno : (rbr == lbr && peekChar rest == some lbr) = false := by
      simp [lbr, rbr]
    simp [parse_recursive, hno]
  · rfl

/-- C9: the scenario input with text before a tag, a simple variable tag, and
text after it parses under default limits to exactly the sequence of a `Text`
node, a `Variable` node holding the recursively parsed interior, and a final
`Text` node, in document order. -/
theorem C9_document_order :
    parse exHello = .ok [Node.Text ['H', 'e', 'l', 'l', 'o', ' '],
      Node.Variable [Node.Text ['n', 'a', 'm', 'e']], Node.Text ['!']] := rfl

/-- C10: for every input string and every `Limits` value, the parser never
returns the `UnbalancedTag` error: the depth counter is decremented only
after a matching successful increment, so the checked subtraction in
`exit_depth` never underflows and that error branch is unreachable. -/
theorem C10_no_unbalanced (input : List Char) (limits : Limits) :
    isUnbalancedResult (parse_inner input limits) = false := by
  unfold parse_inner
  split
  · rfl
  · rename_i e heq
    cases e with
    | DepthExceeded l o => rfl
    | NodeLimitExceeded l o => rfl
    | UnclosedVariable o => rfl
    | EmptyVariable o => rfl
    | UnbalancedTag o =>
      exact absurd heq (parse_recursive_no_unbalanced _ _ _ _ _ _ _ o)
  · rename_i heq
    exact absurd heq
      (parse_recursive_fuel_sufficient _ _ _ _ _ _ _ (by omega))

end Mst

